import Mathlib

/-!
Verification of the revision-analysis helpers in `functions.py`
(`find_superfans`, `cummulative_edits`, `includes_string`, `count_string`).

The tabular pandas code is embedded shallowly: a dataframe column becomes a
field of a row structure, dataframes become lists of rows, and each pipeline
stage of the Python source becomes one Lean function.  Machine reals produced
by `Series.quantile` are modelled as `ℚ` (all inputs are integer-valued, so
linear interpolation stays inside `ℚ`).
-/

namespace TwoDirections

/-! ### `count_string` (functions.py lines 191-203)

`count_string` counts matches of the regex `\b<escaped target>\b` with
`re.IGNORECASE`.  Because the target is `re.escape`d it is a literal; a match
at position `i` therefore requires the target's characters (case-insensitively)
at `i`, a word boundary at `i` and a word boundary at `i + len(target)`.
For a target made of word characters two matches can never overlap, so the
number of match positions equals Python's non-overlapping match count.
Inputs are ASCII, so `\w` is `[A-Za-z0-9_]`. -/

def isWordChar (c : Char) : Bool :=
  c.isAlpha || c.isDigit || c = '_'

/-- Word-character test at integer position `i` of `l`; positions outside the
text count as non-word (regex `\b` semantics at the ends). -/
def wordAt (l : List Char) (i : ℤ) : Bool :=
  if i < 0 then false else isWordChar (l.getD i.toNat ' ')

/-- Regex `\b`: the word-ness of the character before position `i` differs
from the word-ness of the character at `i`. -/
def boundaryAt (l : List Char) (i : ℕ) : Bool :=
  wordAt l ((i : ℤ) - 1) != wordAt l (i : ℤ)

/-- Case-insensitive equality of character lists (`re.IGNORECASE`). -/
def lowerEq (a b : List Char) : Bool :=
  a.map Char.toLower == b.map Char.toLower

/-- Embeds `count_string`: number of positions where the literal target matches
case-insensitively, delimited by word boundaries on both sides
(`rf'\b{re.escape(string)}\b'` with `re.IGNORECASE`). -/
def count_string (target text : List Char) : ℕ :=
  ((List.range (text.length + 1)).filter fun i =>
    decide (i + target.length ≤ text.length)
    && lowerEq ((text.drop i).take target.length) target
    && boundaryAt text i
    && boundaryAt text (i + target.length)).length

/-! ### `includes_string` (functions.py lines 174-188)

`includes_string` tests `df[column].str.contains(rf'\[\[.*?\|{string}\]\]',
case=False)`.  The target is interpolated with NO escaping, so its characters
are regex syntax.  The embedding models the regex fragment actually exercised:
literal characters (case-insensitive under `case=False`) and the metacharacter
`.` (any character except newline).  `.*?` is lazy, which cannot change
whether a match exists somewhere in the text, so the search is modelled as an
existence check over decompositions. -/

/-- One target character viewed as regex: `.` matches any non-newline
character, anything else matches itself case-insensitively. -/
def charMatch (p c : Char) : Bool :=
  if p = '.' then c != '\n' else p.toLower == c.toLower

/-- After the `|`, the interpolated target pattern must match and be followed
immediately by `]]`. -/
def tailMatch : List Char → List Char → Bool
  | [], ']' :: ']' :: _ => true
  | [], _ => false
  | _ :: _, [] => false
  | p :: ps, c :: cs => charMatch p c && tailMatch ps cs

/-- Scan for the `|` of `\[\[.*?\|…\]\]`: each character before it is consumed
by `.*?` (hence must not be a newline), or is the pipe itself. -/
def findPipe (target : List Char) : List Char → Bool
  | [] => false
  | c :: rs => (c == '|' && tailMatch target rs) || (c != '\n' && findPipe target rs)

/-- Embeds `includes_string`: does the text contain a match of
`\[\[.*?\|{target}\]\]` (case-insensitive)?  `re.search` semantics: try a
match starting at every position. -/
def includes_string (target : List Char) : List Char → Bool
  | [] => false
  | c :: rest =>
    (match c, rest with
      | '[', '[' :: rest2 => findPipe target rest2
      | _, _ => false)
    || includes_string target rest

/-- Comparison definition following the alternative reading of the target as
LITERAL text (what `re.escape` would have produced): every target character,
including `.`, matches only itself case-insensitively. -/
def charLit (p c : Char) : Bool :=
  p.toLower == c.toLower

/-- Variant of `tailMatch` under the literal reading of the target. -/
def tailLit : List Char → List Char → Bool
  | [], ']' :: ']' :: _ => true
  | [], _ => false
  | _ :: _, [] => false
  | p :: ps, c :: cs => charLit p c && tailLit ps cs

/-- Variant of `findPipe` under the literal reading of the target. -/
def findPipeLit (target : List Char) : List Char → Bool
  | [] => false
  | c :: rs => (c == '|' && tailLit target rs) || (c != '\n' && findPipeLit target rs)

/-- Variant of `includes_string` under the literal reading of the target, for comparison
with the code's behaviour on targets containing regex metacharacters. -/
def includes_string_literal (target : List Char) : List Char → Bool
  | [] => false
  | c :: rest =>
    (match c, rest with
      | '[', '[' :: rest2 => findPipeLit target rest2
      | _, _ => false)
    || includes_string_literal target rest

/-! ### `Series.quantile` (pandas default linear interpolation)

`quantile q` over `n` sorted values: `h = (n-1)*q`, `j = ⌊h⌋`, and the result
is `x_j + (h - j) * (x_{j+1} - x_j)` with the upper index clipped to `n-1`.
The empty series (pandas returns NaN) is mapped to `0`; every use below is on
a non-empty series. -/

def quantile (q : ℚ) (l : List ℚ) : ℚ :=
  let s := List.insertionSort (· ≤ ·) l
  let n := s.length
  if n = 0 then 0
  else
    let hq : ℚ := ((n : ℚ) - 1) * q
    let j : ℕ := (⌊hq⌋).toNat
    let g : ℚ := hq - (j : ℚ)
    let xj := s.getD j 0
    let xj1 := s.getD (min (j + 1) (n - 1)) 0
    xj + g * (xj1 - xj)

/-! ### Data model for `find_superfans` (functions.py lines 79-124)

A raw revision event carries `userid`, `timestamp` (modelled as already-parsed
integer ticks; `pd.to_datetime` on well-formed input is a bijection onto such
ticks) and `text_length`. -/

structure Event where
  userid : String
  timestamp : ℤ
  text_length : ℤ
deriving DecidableEq

/-- A row after line 94 added the `date` column. -/
structure Row where
  userid : String
  timestamp : ℤ
  text_length : ℤ
  date : ℤ
deriving DecidableEq

/-- A compressed row after lines 105-106 added the `edit_size` column. -/
structure CRow where
  userid : String
  timestamp : ℤ
  text_length : ℤ
  date : ℤ
  edit_size : ℤ
deriving DecidableEq

/-- Embeds `df['timestamp'].dt.date`: the calendar day of a tick timestamp
(floor division by the ticks-per-day constant). -/
def dayOf (t : ℤ) : ℤ := Int.fdiv t 86400

/-- Line 94: `df['date'] = df['timestamp'].dt.date`. -/
def addDate (df : List Event) : List Row :=
  df.map fun e => ⟨e.userid, e.timestamp, e.text_length, dayOf e.timestamp⟩

/-- Strict lexicographic order on character lists: the order pandas uses on
the string `userid` column. -/
def lexLt : List Char → List Char → Prop
  | _, [] => False
  | [], _ :: _ => True
  | a :: as, b :: bs => a < b ∨ (a = b ∧ lexLt as bs)

instance lexLtDecidable : ∀ a b : List Char, Decidable (lexLt a b)
  | [], [] => isFalse (fun h => h)
  | _ :: _, [] => isFalse (fun h => h)
  | [], _ :: _ => isTrue trivial
  | a :: as, b :: bs =>
    have : Decidable (lexLt as bs) := lexLtDecidable as bs
    inferInstanceAs (Decidable (a < b ∨ (a = b ∧ lexLt as bs)))

/-- Line 97 sort key: `sort_values(by=['userid', 'date', 'timestamp'])`
(lexicographic; pandas' multi-key sort is a stable lexsort). -/
def r1 (a b : Row) : Prop :=
  lexLt a.userid.data b.userid.data ∨
    (a.userid = b.userid ∧
      (a.date < b.date ∨ (a.date = b.date ∧ a.timestamp ≤ b.timestamp)))

instance : DecidableRel r1 := fun a b => by unfold r1; infer_instance

/-- Line 102 sort key: `sort_values(by='timestamp')`. -/
def rT (a b : Row) : Prop := a.timestamp ≤ b.timestamp

instance : DecidableRel rT := fun a b => by unfold rT; infer_instance

/-- Line 100: `groupby(['userid', 'date'], as_index=False).last()` applied to
a list already sorted by `(userid, date, timestamp)`: rows with equal
`(userid, date)` are contiguous, and the last row of each run is kept. -/
def collapseLast : List Row → List Row
  | [] => []
  | [x] => [x]
  | x :: y :: rest =>
    if x.userid = y.userid ∧ x.date = y.date then collapseLast (y :: rest)
    else x :: collapseLast (y :: rest)

/-- Line 105 `diff()` continuation: each row's `edit_size` is its
`text_length` minus the previous row's `text_length` (`prev`). -/
def sizesFrom (prev : ℤ) : List Row → List CRow
  | [] => []
  | y :: rest =>
    ⟨y.userid, y.timestamp, y.text_length, y.date, y.text_length - prev⟩ ::
      sizesFrom y.text_length rest

/-- Lines 105-106: `edit_size = text_length.diff()` with the leading NaN
filled by the fixed constant 72. -/
def addSizes : List Row → List CRow
  | [] => []
  | x :: rest =>
    ⟨x.userid, x.timestamp, x.text_length, x.date, 72⟩ :: sizesFrom x.text_length rest

/-- Lines 93-106: the `compressed_df` of `find_superfans` — add the date
column, sort by `(userid, date, timestamp)`, keep the last row per
`(userid, date)` group, re-sort chronologically, and attach edit sizes.
`insertionSort` is a stable sort, matching pandas' stable lexsort on line 97;
on line 102 pandas' default sort is not stability-guaranteed, so the embedded
order is one chronological order, which is all downstream code relies on. -/
def compress (df : List Event) : List CRow :=
  addSizes (List.insertionSort rT (collapseLast (List.insertionSort r1 (addDate df))))

/-! ### `classify_superfans` (functions.py lines 111-117) -/

/-- Helper for `uniqueFirst`: keep elements whose first occurrence this is,
skipping those already `seen`. -/
def uniqueFirstAux (seen : List String) : List String → List String
  | [] => []
  | x :: xs =>
    if x ∈ seen then uniqueFirstAux seen xs
    else x :: uniqueFirstAux (x :: seen) xs

/-- Embeds `pd.Series.unique`: first occurrences, in encounter order. -/
def uniqueFirst (l : List String) : List String :=
  uniqueFirstAux [] l

/-- Lines 111 and 116: the number of `(day, userid)` groups of a contributor,
i.e. the number of distinct dates among that contributor's rows. -/
def userDays (l : List CRow) (u : String) : ℕ :=
  (((l.filter fun r => r.userid == u).map fun r => r.date).dedup).length

/-- One row of the `superfans` dataframe. -/
structure SFRow where
  userid : String
  num_edits : ℕ
  superfan : Bool
deriving DecidableEq

/-- Lines 111-117: one row per distinct contributor of the compressed input;
`num_edits` is the contributor's distinct-day count and `superfan` is the
comparison against the 0.95 quantile of `num_edits` over all contributors. -/
def classify_superfans (l : List CRow) : List SFRow :=
  let us := uniqueFirst (l.map fun r => r.userid)
  let thr := quantile (95 / 100) (us.map fun u => (userDays l u : ℚ))
  us.map fun u => ⟨u, userDays l u, decide ((userDays l u : ℚ) ≥ thr)⟩

/-! ### `filter_outliers` (functions.py lines 121-123) -/

/-- Lines 121-123: `df_95 = compressed_df['edit_size'].quantile(0.95)` (note:
the quantile of the SIGNED edit sizes) and
`filtered_df = compressed_df[compressed_df['edit_size'].abs() <= df_95]`. -/
def filter_outliers (l : List CRow) : List CRow :=
  let t := quantile (95 / 100) (l.map fun r => (r.edit_size : ℚ))
  l.filter fun r => decide (|(r.edit_size : ℚ)| ≤ t)

/-! ### `cummulative_edits` (functions.py lines 126-147)

`data['timestamp'].dt.to_period(period).dt.start_time` maps each timestamp to
the canonical start of its bucket; it is embedded as an arbitrary function
`periodStart : ℤ → ℤ` since the bucketing rule itself is pandas-internal.
`groupby(...).size()` yields one row per distinct bucket with its event
count, sorted ascending by bucket; `cumsum` adds the running total. -/

/-- Embeds `cumsum` over `(period, revisions)` rows, threading the accumulator. -/
def cumAdd (acc : ℕ) : List (ℤ × ℕ) → List (ℤ × ℕ × ℕ)
  | [] => []
  | (k, c) :: rest => (k, c, acc + c) :: cumAdd (acc + c) rest

/-- Lines 140-147: rows `(period_start, revisions, cumulative_revisions)`,
one per non-empty bucket, ascending by period start. -/
def cummulative_edits (periodStart : ℤ → ℤ) (timestamps : List ℤ) : List (ℤ × ℕ × ℕ) :=
  let ps := timestamps.map periodStart
  let keys := ps.toFinset.sort (· ≤ ·)
  cumAdd 0 (keys.map fun k => (k, ps.count k))

/-! ### Caller-visible mutation (functions.py lines 93-94, 97 and 137, 140)

Python aliasing embedded as explicit state passing: `df[col] = …` mutates the
caller's frame object, while `df = df.sort_values(…)` and later reassignments
only rebind the callee's local name.  The state records the caller-visible
aspects those assignments touch. -/

structure PandasDF where
  /-- The `timestamp` column's underlying values, row for row. -/
  timestampRaw : List ℤ
  /-- Whether `pd.to_datetime` has been applied to the `timestamp` column. -/
  tsParsed : Bool
  /-- Names of derived columns present on the caller's frame object. -/
  extraCols : List String
deriving DecidableEq

/-- Lines 93-94: `df['timestamp'] = pd.to_datetime(df['timestamp'])` and
`df['date'] = df['timestamp'].dt.date` hit the caller's object; from line 97
on, `df` is rebound to fresh frames, so nothing else is caller-visible. -/
def find_superfans_effect (d : PandasDF) : PandasDF :=
  { timestampRaw := d.timestampRaw, tsParsed := true, extraCols := d.extraCols ++ ["date"] }

/-- Lines 137 and 140: `data['timestamp'] = pd.to_datetime(...)` and
`data[f'{period}_period'] = ...` hit the caller's object; `biweekly_data` is
a fresh frame. -/
def cummulative_edits_effect (period : String) (d : PandasDF) : PandasDF :=
  { timestampRaw := d.timestampRaw, tsParsed := true
    extraCols := d.extraCols ++ [period ++ "_period"] }

/-! ### Properties of the line-97 sort relation -/

theorem lexLt_trans : ∀ a b c : List Char, lexLt a b → lexLt b c → lexLt a c := by
  intro a
  induction a with
  | nil =>
    intro b c hab hbc
    cases b with
    | nil => exact hab.elim
    | cons y ys =>
      cases c with
      | nil => exact hbc.elim
      | cons z zs => exact trivial
  | cons x xs ih =>
    intro b c hab hbc
    cases b with
    | nil => exact hab.elim
    | cons y ys =>
      cases c with
      | nil => exact hbc.elim
      | cons z zs =>
        rcases hab with h1 | ⟨e1, h1⟩ <;> rcases hbc with h2 | ⟨e2, h2⟩
        · exact Or.inl (h1.trans h2)
        · exact Or.inl (lt_of_lt_of_le h1 (le_of_eq e2))
        · exact Or.inl (lt_of_le_of_lt (le_of_eq e1) h2)
        · exact Or.inr ⟨e1.trans e2, ih ys zs h1 h2⟩

theorem lexLt_irrefl : ∀ a : List Char, ¬lexLt a a := by
  intro a
  induction a with
  | nil => exact fun h => h
  | cons x xs ih =>
    intro h
    rcases h with h | ⟨_, h⟩
    · exact lt_irrefl x h
    · exact ih h

theorem lexLt_total : ∀ a b : List Char, lexLt a b ∨ a = b ∨ lexLt b a := by
  intro a
  induction a with
  | nil =>
    intro b
    cases b with
    | nil => exact Or.inr (Or.inl rfl)
    | cons y ys => exact Or.inl trivial
  | cons x xs ih =>
    intro b
    cases b with
    | nil => exact Or.inr (Or.inr trivial)
    | cons y ys =>
      rcases lt_trichotomy x y with h | h | h
      · exact Or.inl (Or.inl h)
      · rcases ih ys with h2 | h2 | h2
        · exact Or.inl (Or.inr ⟨h, h2⟩)
        · exact Or.inr (Or.inl (by rw [h, h2]))
        · exact Or.inr (Or.inr (Or.inr ⟨h.symm, h2⟩))
      · exact Or.inr (Or.inr (Or.inl h))

theorem lexLt_ne {a b : List Char} (h : lexLt a b) : a ≠ b :=
  fun e => lexLt_irrefl b (e ▸ h)

theorem r1_refl (a : Row) : r1 a a :=
  Or.inr ⟨rfl, Or.inr ⟨rfl, le_refl _⟩⟩

theorem r1_total : IsTotal Row r1 :=
  ⟨fun a b => by
    rcases lexLt_total a.userid.data b.userid.data with h | h | h
    · exact Or.inl (Or.inl h)
    · have hu : a.userid = b.userid := String.toList_inj.mp h
      rcases lt_trichotomy a.date b.date with h2 | h2 | h2
      · exact Or.inl (Or.inr ⟨hu, Or.inl h2⟩)
      · rcases le_total a.timestamp b.timestamp with h3 | h3
        · exact Or.inl (Or.inr ⟨hu, Or.inr ⟨h2, h3⟩⟩)
        · exact Or.inr (Or.inr ⟨hu.symm, Or.inr ⟨h2.symm, h3⟩⟩)
      · exact Or.inr (Or.inr ⟨hu.symm, Or.inl h2⟩)
    · exact Or.inr (Or.inl h)⟩

theorem r1_trans : IsTrans Row r1 :=
  ⟨fun a b c hab hbc => by
    rcases hab with h1 | ⟨e1, h1⟩ <;> rcases hbc with h2 | ⟨e2, h2⟩
    · exact Or.inl (lexLt_trans _ _ _ h1 h2)
    · exact Or.inl (congrArg String.data e2 ▸ h1)
    · exact Or.inl ((congrArg String.data e1).symm ▸ h2)
    · refine Or.inr ⟨e1.trans e2, ?_⟩
      rcases h1 with d1 | ⟨de1, t1⟩ <;> rcases h2 with d2 | ⟨de2, t2⟩
      · exact Or.inl (d1.trans d2)
      · exact Or.inl (lt_of_lt_of_le d1 (le_of_eq de2))
      · exact Or.inl (lt_of_le_of_lt (le_of_eq de1) d2)
      · exact Or.inr ⟨de1.trans de2, t1.trans t2⟩⟩

/-- Within one `(userid, date)` group the line-97 order coincides with the
timestamp order. -/
theorem r1_ts {a b : Row} (h : r1 a b) (hu : a.userid = b.userid)
    (hd : a.date = b.date) : a.timestamp ≤ b.timestamp := by
  rcases h with h | ⟨_, h⟩
  · exact absurd (congrArg String.data hu) (lexLt_ne h)
  · rcases h with h | ⟨_, h⟩
    · exact absurd hd (ne_of_lt h)
    · exact h

/-- In the line-97 order, an element lying between two rows of one
`(userid, date)` group belongs to that group: groups are contiguous. -/
theorem r1_sandwich {a b c : Row} (hab : r1 a b) (hbc : r1 b c)
    (hu : a.userid = c.userid) (hd : a.date = c.date) :
    a.userid = b.userid ∧ a.date = b.date := by
  have hu1 : a.userid = b.userid := by
    rcases hab with h | ⟨e, _⟩
    · exfalso
      have hac : lexLt a.userid.data c.userid.data := by
        rcases hbc with h2 | ⟨e2, _⟩
        · exact lexLt_trans _ _ _ h h2
        · exact congrArg String.data e2 ▸ h
      exact lexLt_ne hac (congrArg String.data hu)
    · exact e
  have hu2 : b.userid = c.userid := hu1.symm.trans hu
  refine ⟨hu1, ?_⟩
  have hd1 : a.date < b.date ∨ (a.date = b.date ∧ a.timestamp ≤ b.timestamp) := by
    rcases hab with h | ⟨_, h⟩
    · exact absurd (congrArg String.data hu1) (lexLt_ne h)
    · exact h
  have hd2 : b.date ≤ c.date := by
    rcases hbc with h | ⟨_, h⟩
    · exact absurd (congrArg String.data hu2) (lexLt_ne h)
    · rcases h with h | ⟨e, _⟩
      · exact le_of_lt h
      · exact le_of_eq e
  rcases hd1 with h | ⟨e, _⟩
  · exact absurd hd (ne_of_lt (lt_of_lt_of_le h hd2))
  · exact e

/-! ### Properties of `collapseLast` -/

theorem collapseLast_subset : ∀ l : List Row, ∀ x ∈ collapseLast l, x ∈ l := by
  intro l
  induction l with
  | nil => simp [collapseLast]
  | cons x xs ih =>
    cases xs with
    | nil => simp [collapseLast]
    | cons y rest =>
      intro z hz
      by_cases h : x.userid = y.userid ∧ x.date = y.date
      · simp only [collapseLast, if_pos h] at hz
        exact List.mem_cons_of_mem x (ih z hz)
      · simp only [collapseLast, if_neg h] at hz
        rcases List.mem_cons.mp hz with rfl | hz
        · exact List.mem_cons_self _ _
        · exact List.mem_cons_of_mem x (ih z hz)

theorem collapseLast_ne_nil : ∀ l : List Row, l ≠ [] → collapseLast l ≠ [] := by
  intro l
  induction l with
  | nil => exact fun h => absurd rfl h
  | cons x xs ih =>
    intro _
    cases xs with
    | nil => simp [collapseLast]
    | cons y rest =>
      by_cases h : x.userid = y.userid ∧ x.date = y.date
      · simp only [collapseLast, if_pos h]
        exact ih (by simp)
      · simp only [collapseLast, if_neg h]
        simp

/-- On a list sorted by `(userid, date, timestamp)`, every row kept by
`collapseLast` dominates, in timestamp, every row of its group. -/
theorem collapseLast_max : ∀ l : List Row, List.Sorted r1 l →
    ∀ x ∈ collapseLast l, ∀ e ∈ l,
      e.userid = x.userid → e.date = x.date → e.timestamp ≤ x.timestamp := by
  intro l
  induction l with
  | nil => simp [collapseLast]
  | cons a xs ih =>
    intro hs
    cases xs with
    | nil =>
      intro z hz e he hu hd
      simp only [collapseLast, List.mem_singleton] at hz he
      subst hz; subst he
      exact le_refl _
    | cons b rest =>
      have hab : r1 a b := (List.sorted_cons.mp hs).1 b (List.mem_cons_self b rest)
      have hs' : List.Sorted r1 (b :: rest) := (List.sorted_cons.mp hs).2
      have hbtail : ∀ e ∈ b :: rest, r1 b e := by
        intro e he
        rcases List.mem_cons.mp he with rfl | he
        · exact r1_refl e
        · exact (List.sorted_cons.mp hs').1 e he
      intro z hz e he hu hd
      by_cases h : a.userid = b.userid ∧ a.date = b.date
      · simp only [collapseLast, if_pos h] at hz
        rcases List.mem_cons.mp he with hea | he2
        · have hbz := ih hs' z hz b (List.mem_cons_self _ _)
            (h.1.symm.trans (hea ▸ hu)) (h.2.symm.trans (hea ▸ hd))
          rw [hea]
          exact (r1_ts hab h.1 h.2).trans hbz
        · exact ih hs' z hz e he2 hu hd
      · simp only [collapseLast, if_neg h] at hz
        rcases List.mem_cons.mp hz with hza | hz2
        · rcases List.mem_cons.mp he with hea | he2
          · rw [hea, hza]
          · refine absurd (r1_sandwich hab (hbtail e he2) ?_ ?_) h
            · rw [hza] at hu; exact hu.symm
            · rw [hza] at hd; exact hd.symm
        · rcases List.mem_cons.mp he with hea | he2
          · have hzmem : z ∈ b :: rest := collapseLast_subset _ z hz2
            refine absurd (r1_sandwich hab (hbtail z hzmem) ?_ ?_) h
            · rw [hea] at hu; exact hu
            · rw [hea] at hd; exact hd
          · exact ih hs' z hz2 e he2 hu hd

/-- On a sorted list, `collapseLast` keeps at most one row per
`(userid, date)` pair. -/
theorem collapseLast_keys_nodup : ∀ l : List Row, List.Sorted r1 l →
    ((collapseLast l).map fun r => (r.userid, r.date)).Nodup := by
  intro l
  induction l with
  | nil => simp [collapseLast]
  | cons a xs ih =>
    intro hs
    cases xs with
    | nil => simp [collapseLast]
    | cons b rest =>
      have hab : r1 a b := (List.sorted_cons.mp hs).1 b (List.mem_cons_self b rest)
      have hs' : List.Sorted r1 (b :: rest) := (List.sorted_cons.mp hs).2
      have hbtail : ∀ e ∈ b :: rest, r1 b e := by
        intro e he
        rcases List.mem_cons.mp he with rfl | he
        · exact r1_refl e
        · exact (List.sorted_cons.mp hs').1 e he
      by_cases h : a.userid = b.userid ∧ a.date = b.date
      · simp only [collapseLast, if_pos h]
        exact ih hs'
      · simp only [collapseLast, if_neg h, List.map_cons, List.nodup_cons]
        refine ⟨?_, ih hs'⟩
        intro hmem
        rcases List.mem_map.mp hmem with ⟨z, hz, hkey⟩
        have hzmem : z ∈ b :: rest := collapseLast_subset _ z hz
        exact absurd
          (r1_sandwich hab (hbtail z hzmem)
            (congrArg Prod.fst hkey).symm (congrArg Prod.snd hkey).symm) h

/-! ### Bounding the linear-interpolation quantile -/

theorem exists_max_mem (l : List ℚ) (h : l ≠ []) : ∃ m ∈ l, ∀ x ∈ l, x ≤ m := by
  induction l with
  | nil => exact absurd rfl h
  | cons a xs ih =>
    cases xs with
    | nil =>
      refine ⟨a, List.mem_cons_self _ _, ?_⟩
      intro x hx
      rcases List.mem_cons.mp hx with hxa | hx0
      · exact le_of_eq hxa
      · exact absurd hx0 (List.not_mem_nil x)
    | cons b ys =>
      obtain ⟨m, hm, hmax⟩ := ih (by simp)
      rcases le_total a m with hle | hle
      · refine ⟨m, List.mem_cons_of_mem a hm, ?_⟩
        intro x hx
        rcases List.mem_cons.mp hx with hxa | hx0
        · exact hxa ▸ hle
        · exact hmax x hx0
      · refine ⟨a, List.mem_cons_self _ _, ?_⟩
        intro x hx
        rcases List.mem_cons.mp hx with hxa | hx0
        · exact le_of_eq hxa
        · exact (hmax x hx0).trans hle

/-- The linear-interpolation quantile never exceeds an upper bound of the
data: it is a convex combination of two data points. -/
theorem quantile_le_max (q : ℚ) (l : List ℚ) (M : ℚ) (h0 : 0 ≤ q) (h1 : q ≤ 1)
    (hne : l ≠ []) (hM : ∀ x ∈ l, x ≤ M) : quantile q l ≤ M := by
  have hperm := List.perm_insertionSort (fun a b : ℚ => a ≤ b) l
  set s := List.insertionSort (fun a b : ℚ => a ≤ b) l with hs
  have hmem : ∀ x ∈ s, x ≤ M := fun x hx => hM x (hperm.mem_iff.mp hx)
  have hn : s.length ≠ 0 := by
    rw [hperm.length_eq]
    intro hc
    exact hne (List.length_eq_zero.mp hc)
  have hn1 : (1 : ℚ) ≤ (s.length : ℚ) := by
    have := Nat.one_le_iff_ne_zero.mpr hn
    exact_mod_cast this
  simp only [quantile, ← hs, if_neg hn]
  set hq : ℚ := ((s.length : ℚ) - 1) * q with hhq
  have hq0 : 0 ≤ hq := mul_nonneg (by linarith) h0
  have hqle : hq ≤ (s.length : ℚ) - 1 := by
    calc hq ≤ ((s.length : ℚ) - 1) * 1 := by
          exact mul_le_mul_of_nonneg_left h1 (by linarith)
      _ = (s.length : ℚ) - 1 := mul_one _
  set j : ℕ := (⌊hq⌋).toNat with hj
  have hjq : (j : ℚ) ≤ hq := by
    rw [hj]
    have hfl : (0 : ℤ) ≤ ⌊hq⌋ := Int.floor_nonneg.mpr hq0
    have : ((⌊hq⌋.toNat : ℤ) : ℚ) = ((⌊hq⌋ : ℤ) : ℚ) := by
      rw [Int.toNat_of_nonneg hfl]
    calc ((⌊hq⌋.toNat : ℕ) : ℚ) = ((⌊hq⌋ : ℤ) : ℚ) := by push_cast at this ⊢; exact this
      _ ≤ hq := Int.floor_le hq
  have hg0 : 0 ≤ hq - (j : ℚ) := by linarith
  have hg1 : hq - (j : ℚ) ≤ 1 := by
    have hfl : (0 : ℤ) ≤ ⌊hq⌋ := Int.floor_nonneg.mpr hq0
    have heq : ((j : ℕ) : ℚ) = ((⌊hq⌋ : ℤ) : ℚ) := by
      rw [hj]
      exact_mod_cast congrArg (fun z : ℤ => (z : ℚ)) (Int.toNat_of_nonneg hfl)
    have hlt : hq - ((⌊hq⌋ : ℤ) : ℚ) < 1 := by
      have hfr := Int.fract_lt_one hq
      rw [← Int.self_sub_floor hq] at hfr
      exact hfr
    rw [heq]
    linarith
  have hjlt : j < s.length := by
    have : (j : ℚ) ≤ (s.length : ℚ) - 1 := hjq.trans hqle
    have hjn : (j : ℚ) < (s.length : ℚ) := by linarith
    exact_mod_cast hjn
  have hj1lt : min (j + 1) (s.length - 1) < s.length := by
    rcases Nat.lt_or_ge (j + 1) (s.length - 1) with hlt | hge
    · calc min (j + 1) (s.length - 1) ≤ s.length - 1 := min_le_right _ _
        _ < s.length := Nat.sub_lt (Nat.pos_of_ne_zero hn) one_pos
    · calc min (j + 1) (s.length - 1) ≤ s.length - 1 := min_le_right _ _
        _ < s.length := Nat.sub_lt (Nat.pos_of_ne_zero hn) one_pos
  have hxj : s.getD j 0 ≤ M := by
    rw [List.getD_eq_getElem s 0 hjlt]
    exact hmem _ (s.get_mem j hjlt)
  have hxj1 : s.getD (min (j + 1) (s.length - 1)) 0 ≤ M := by
    rw [List.getD_eq_getElem s 0 hj1lt]
    exact hmem _ (s.get_mem _ hj1lt)
  set xj := s.getD j 0
  set xj1 := s.getD (min (j + 1) (s.length - 1)) 0
  have key1 : 0 ≤ (1 - (hq - (j : ℚ))) * (M - xj) :=
    mul_nonneg (by linarith) (by linarith)
  have key2 : 0 ≤ (hq - (j : ℚ)) * (M - xj1) := mul_nonneg hg0 (by linarith)
  nlinarith [key1, key2]

/-! ### Field preservation through `addSizes` and `cumAdd` -/

theorem sizesFrom_fields (p : ℤ) (l : List Row) :
    (sizesFrom p l).map (fun c => (c.userid, c.timestamp, c.text_length, c.date)) =
      l.map (fun r => (r.userid, r.timestamp, r.text_length, r.date)) := by
  induction l generalizing p with
  | nil => rfl
  | cons y rest ih => simp [sizesFrom, ih]

theorem addSizes_fields (l : List Row) :
    (addSizes l).map (fun c => (c.userid, c.timestamp, c.text_length, c.date)) =
      l.map (fun r => (r.userid, r.timestamp, r.text_length, r.date)) := by
  cases l with
  | nil => rfl
  | cons x rest => simp [addSizes, sizesFrom_fields]

/-- Every output row of `addSizes` carries the fields of some input row. -/
theorem addSizes_mem (l : List Row) (c : CRow) (hc : c ∈ addSizes l) :
    ∃ p ∈ l, c.userid = p.userid ∧ c.timestamp = p.timestamp ∧
      c.text_length = p.text_length ∧ c.date = p.date := by
  have h1 : (c.userid, c.timestamp, c.text_length, c.date) ∈
      (addSizes l).map (fun c => (c.userid, c.timestamp, c.text_length, c.date)) :=
    List.mem_map_of_mem _ hc
  rw [addSizes_fields] at h1
  rcases List.mem_map.mp h1 with ⟨p, hp, hpe⟩
  refine ⟨p, hp, ?_, ?_, ?_, ?_⟩
  · exact (congrArg (fun t => t.1) hpe).symm
  · exact (congrArg (fun t => t.2.1) hpe).symm
  · exact (congrArg (fun t => t.2.2.1) hpe).symm
  · exact (congrArg (fun t => t.2.2.2) hpe).symm

theorem addSizes_keys (l : List Row) :
    (addSizes l).map (fun c => (c.userid, c.date)) =
      l.map (fun r => (r.userid, r.date)) := by
  have h := congrArg (List.map (fun t : String × ℤ × ℤ × ℤ => (t.1, t.2.2.2)))
    (addSizes_fields l)
  simpa [List.map_map, Function.comp] using h

/-- The `edit_size` column of `sizesFrom` is the running difference. -/
theorem chain_sizesFrom : ∀ (l : List Row) (p : ℤ) (c : CRow), c.text_length = p →
    List.Chain' (fun a b : CRow => b.edit_size = b.text_length - a.text_length)
      (c :: sizesFrom p l) := by
  intro l
  induction l with
  | nil =>
    intro p c _
    simp [sizesFrom]
  | cons y rest ih =>
    intro p c hc
    simp only [sizesFrom]
    rw [List.chain'_cons]
    exact ⟨by simp [hc], ih y.text_length _ rfl⟩

theorem cumAdd_map_fst (a : ℕ) (l : List (ℤ × ℕ)) :
    (cumAdd a l).map (fun b => b.1) = l.map Prod.fst := by
  induction l generalizing a with
  | nil => rfl
  | cons x xs ih =>
    cases x
    simp [cumAdd, ih]

theorem cumAdd_map_counts (a : ℕ) (l : List (ℤ × ℕ)) :
    (cumAdd a l).map (fun b => b.2.1) = l.map Prod.snd := by
  induction l generalizing a with
  | nil => rfl
  | cons x xs ih =>
    cases x
    simp [cumAdd, ih]

theorem cumAdd_getLast : ∀ (l : List (ℤ × ℕ)) (a : ℕ), l ≠ [] →
    ∃ b, (cumAdd a l).getLast? = some b ∧ b.2.2 = a + (l.map Prod.snd).sum := by
  intro l
  induction l with
  | nil => exact fun a h => absurd rfl h
  | cons x xs ih =>
    intro a _
    obtain ⟨k, c⟩ := x
    cases xs with
    | nil =>
      refine ⟨(k, c, a + c), ?_, by simp⟩
      simp [cumAdd]
    | cons y ys =>
      obtain ⟨b, hb, hcum⟩ := ih (a + c) (by simp)
      refine ⟨b, ?_, ?_⟩
      · obtain ⟨k2, c2⟩ := y
        simp only [cumAdd] at hb ⊢
        rw [List.getLast?_cons_cons]
        exact hb
      · rw [hcum]
        simp [Nat.add_assoc]

/-- Sum of the per-bucket counts over the distinct sorted keys is the total
number of elements. -/
theorem count_sum (ps : List ℤ) :
    ((ps.toFinset.sort (· ≤ ·)).map fun k => ps.count k).sum = ps.length := by
  have h1 : List.Perm ((ps.toFinset.sort (· ≤ ·)).map fun k => ps.count k)
      (ps.toFinset.toList.map fun k => ps.count k) :=
    (Finset.sort_perm_toList _ _).map _
  rw [h1.sum_eq, Finset.sum_to_list]
  simp

/-! ## Claim theorems -/

/-- Claim C7: `count_string` counts case-insensitive whole-word occurrences
delimited by regex word boundaries: on "vandalism and Vandalism-prone" with
target "vandalism" the count is 2, the hyphen acting as a word boundary so
that the "Vandalism" of the hyphenated token is a whole-word match. -/
theorem count_string_whole_word :
    count_string "vandalism".toList "vandalism and Vandalism-prone".toList = 2 := by
  decide

/-- Claim C10: `includes_string` recognizes only pipe-form wiki links
`[[…|target]]` (case-insensitive): the piped link matches, the bare bracketed
link `[[target]]` does not, and because the target is interpolated into the
regex without escaping, a target with the metacharacter `.` is read as a
pattern (it matches "Superban"), unlike the literal reading. -/
theorem includes_string_pipe_only :
    includes_string "Superfan".toList "see [[Article|Superfan]]".toList = true ∧
    includes_string "SUPERFAN".toList "see [[Article|Superfan]]".toList = true ∧
    includes_string "Superfan".toList "[[Superfan]]".toList = false ∧
    includes_string "Super.an".toList "[[X|Superban]]".toList = true ∧
    includes_string_literal "Super.an".toList "[[X|Superban]]".toList = false := by
  decide

/-- Claim C5: three same-day events of contributor "A" with content lengths
100, 150, 200 plus one next-day event of "B" with 210 compress to exactly two
rows, `(A, day, 200, edit_size 72)` and `(B, next day, 210, edit_size 10)`. -/
theorem compress_scenario :
    compress [⟨"A", 864010, 100⟩, ⟨"A", 864020, 150⟩, ⟨"A", 864030, 200⟩,
        ⟨"B", 950405, 210⟩] =
      [⟨"A", 864030, 200, 10, 72⟩, ⟨"B", 950405, 210, 11, 10⟩] := by
  decide

/-- Claim C9: `find_superfans` and `cummulative_edits` mutate the caller's
frame in place: after `find_superfans` the input's `timestamp` column is
datetime-converted and a `date` column has been added; after
`cummulative_edits` the input has gained a `{period}_period` column; the row
data itself (and in particular its order) is otherwise untouched. -/
theorem caller_frame_mutation (d : PandasDF) (p : String) :
    (find_superfans_effect d).tsParsed = true ∧
    "date" ∈ (find_superfans_effect d).extraCols ∧
    (find_superfans_effect d).timestampRaw = d.timestampRaw ∧
    (cummulative_edits_effect p d).tsParsed = true ∧
    (p ++ "_period") ∈ (cummulative_edits_effect p d).extraCols ∧
    (cummulative_edits_effect p d).timestampRaw = d.timestampRaw := by
  refine ⟨rfl, ?_, rfl, rfl, ?_, rfl⟩
  · simp [find_superfans_effect]
  · simp [cummulative_edits_effect]

/-- Claim C1, counterexample: the code thresholds on the 0.95 quantile of the
SIGNED edit sizes (line 121), not of their absolute values.  On a compressed
input with edit sizes `[72, -995, 1, 2]`, the first row has
`|edit_size| = 72 ≤ 856.55` (the 0.95 quantile of the absolute values), yet
the code drops it, because its signed-quantile threshold is `61.5`. -/
theorem filter_outliers_signed_threshold_cex :
    (⟨"a", 0, 1000, 0, 72⟩ : CRow) ∈
      compress [⟨"a", 0, 1000⟩, ⟨"b", 86400, 5⟩, ⟨"c", 172800, 6⟩, ⟨"d", 259200, 8⟩] ∧
    |((⟨"a", 0, 1000, 0, 72⟩ : CRow).edit_size : ℚ)| ≤
      quantile (95 / 100)
        ((compress [⟨"a", 0, 1000⟩, ⟨"b", 86400, 5⟩, ⟨"c", 172800, 6⟩,
            ⟨"d", 259200, 8⟩]).map fun r => |(r.edit_size : ℚ)|) ∧
    (⟨"a", 0, 1000, 0, 72⟩ : CRow) ∉
      filter_outliers (compress [⟨"a", 0, 1000⟩, ⟨"b", 86400, 5⟩, ⟨"c", 172800, 6⟩,
        ⟨"d", 259200, 8⟩]) := by
  have hc : compress [⟨"a", 0, 1000⟩, ⟨"b", 86400, 5⟩, ⟨"c", 172800, 6⟩,
      ⟨"d", 259200, 8⟩] =
      [⟨"a", 0, 1000, 0, 72⟩, ⟨"b", 86400, 5, 1, -995⟩, ⟨"c", 172800, 6, 2, 1⟩,
        ⟨"d", 259200, 8, 3, 2⟩] := by
    decide
  rw [hc]
  refine ⟨by simp, ?_, ?_⟩
  · norm_num [quantile, List.insertionSort, List.orderedInsert, Int.floor_eq_iff,
      List.getD]
    simp
    norm_num
  · simp only [filter_outliers, List.mem_filter, not_and]
    intro hmem
    norm_num [quantile, List.insertionSort, List.orderedInsert, Int.floor_eq_iff,
      List.getD]
    simp
    norm_num

/-- Claim C1, amended: `filter_outliers` retains exactly those rows whose
absolute `edit_size` is at most the 0.95 quantile of the SIGNED `edit_size`
values over the full compressed sequence. -/
theorem filter_outliers_mem_iff (l : List CRow) (r : CRow) :
    r ∈ filter_outliers l ↔
      r ∈ l ∧ |(r.edit_size : ℚ)| ≤
        quantile (95 / 100) (l.map fun s => (s.edit_size : ℚ)) := by
  simp [filter_outliers, List.mem_filter]

/-- Claim C2: in the `superfans` table, `superfan` is true iff the
contributor's distinct-day count is at least the linear-interpolated 0.95
quantile of the day counts over the whole contributor population, and
`num_edits` is exactly that day count. -/
theorem classify_superfans_threshold (l : List CRow) (r : SFRow)
    (hr : r ∈ classify_superfans l) :
    r.num_edits = userDays l r.userid ∧
    (r.superfan = true ↔
      (r.num_edits : ℚ) ≥ quantile (95 / 100)
        ((uniqueFirst (l.map fun s => s.userid)).map fun u => (userDays l u : ℚ))) := by
  simp only [classify_superfans] at hr
  rcases List.mem_map.mp hr with ⟨u, hu, hur⟩
  rw [← hur]
  exact ⟨rfl, by simp [decide_eq_true_eq]⟩

theorem classify_superfans_threshold_witness :
    (⟨"A", 1, true⟩ : SFRow).num_edits =
      userDays [(⟨"A", 0, 5, 0, 72⟩ : CRow)] (SFRow.userid ⟨"A", 1, true⟩) ∧
    ((⟨"A", 1, true⟩ : SFRow).superfan = true ↔
      ((SFRow.num_edits ⟨"A", 1, true⟩ : ℕ) : ℚ) ≥ quantile (95 / 100)
        ((uniqueFirst (([(⟨"A", 0, 5, 0, 72⟩ : CRow)]).map fun s => s.userid)).map
          fun u => (userDays [(⟨"A", 0, 5, 0, 72⟩ : CRow)] u : ℚ))) :=
  classify_superfans_threshold _ _ (by
    have hc : classify_superfans [(⟨"A", 0, 5, 0, 72⟩ : CRow)] = [⟨"A", 1, true⟩] := by
      simp [classify_superfans, uniqueFirst, uniqueFirstAux, userDays, quantile,
        List.insertionSort, List.orderedInsert, List.getD]
    rw [hc]
    exact List.mem_singleton_self _)

/-- Claim C8: on every non-empty compressed input, at least one contributor
is marked superfan — the maximal day count is at least the interpolated 0.95
quantile of the day counts, which never exceeds the maximum. -/
theorem classify_superfans_nonempty (l : List CRow) (h : l ≠ []) :
    ∃ r ∈ classify_superfans l, r.superfan = true := by
  have hus : uniqueFirst (l.map fun r => r.userid) ≠ [] := by
    cases l with
    | nil => exact absurd rfl h
    | cons x xs => simp [uniqueFirst, uniqueFirstAux]
  set counts := (uniqueFirst (l.map fun r => r.userid)).map
    (fun u => (userDays l u : ℚ)) with hcounts
  have hcne : counts ≠ [] := by
    rw [hcounts]
    intro hc
    exact hus (List.map_eq_nil_iff.mp hc)
  obtain ⟨m, hm, hmax⟩ := exists_max_mem counts hcne
  rw [hcounts] at hm
  rcases List.mem_map.mp hm with ⟨u0, hu0, hmu⟩
  have hthr : quantile (95 / 100) counts ≤ m :=
    quantile_le_max (95 / 100) counts m (by norm_num) (by norm_num) hcne hmax
  refine ⟨⟨u0, userDays l u0,
    decide ((userDays l u0 : ℚ) ≥ quantile (95 / 100) counts)⟩, ?_, ?_⟩
  · simp only [classify_superfans]
    rw [hcounts]
    exact List.mem_map.mpr ⟨u0, hu0, rfl⟩
  · show decide ((userDays l u0 : ℚ) ≥ quantile (95 / 100) counts) = true
    simp only [ge_iff_le, decide_eq_true_eq]
    exact hthr.trans (le_of_eq hmu.symm)

theorem classify_superfans_nonempty_witness :
    ∃ r ∈ classify_superfans [(⟨"A", 0, 5, 0, 72⟩ : CRow)], r.superfan = true :=
  classify_superfans_nonempty _ (by simp)

/-- Claim C6: for every input and period-bucketing function, the bucket
counts of `cummulative_edits` sum to the number of input rows, the last
cumulative value equals that total, and the buckets are strictly ascending
by period start. -/
theorem cummulative_edits_totals (f : ℤ → ℤ) (ts : List ℤ) (h : ts ≠ []) :
    ((cummulative_edits f ts).map fun b => b.2.1).sum = ts.length ∧
    (∃ b, (cummulative_edits f ts).getLast? = some b ∧ b.2.2 = ts.length) ∧
    ((cummulative_edits f ts).map fun b => b.1).Sorted (· < ·) := by
  have hcomp2 : (Prod.snd ∘ fun k => (k, (ts.map f).count k)) =
      fun k => (ts.map f).count k := rfl
  refine ⟨?_, ?_, ?_⟩
  · show ((cummulative_edits f ts).map fun b => b.2.1).sum = ts.length
    simp only [cummulative_edits]
    rw [cumAdd_map_counts, List.map_map, hcomp2, count_sum, List.length_map]
  · have hne : (((ts.map f).toFinset.sort (· ≤ ·)).map
        fun k => (k, (ts.map f).count k)) ≠ [] := by
      cases ts with
      | nil => exact absurd rfl h
      | cons t ts2 =>
        intro hcon
        have hmem : f t ∈ (List.map f (t :: ts2)).toFinset :=
          List.mem_toFinset.mpr (by simp)
        have hsortmem : f t ∈ (List.map f (t :: ts2)).toFinset.sort (· ≤ ·) :=
          (Finset.mem_sort _).mpr hmem
        have hnil : f t ∈ ([] : List ℤ) :=
          List.map_eq_nil_iff.mp hcon ▸ hsortmem
        exact absurd hnil (List.not_mem_nil _)
    obtain ⟨b, hb, hcum⟩ := cumAdd_getLast _ 0 hne
    refine ⟨b, ?_, ?_⟩
    · show (cummulative_edits f ts).getLast? = some b
      simp only [cummulative_edits]
      exact hb
    · rw [hcum, List.map_map, hcomp2, count_sum, List.length_map, Nat.zero_add]
  · show ((cummulative_edits f ts).map fun b => b.1).Sorted (· < ·)
    simp only [cummulative_edits]
    rw [cumAdd_map_fst, List.map_map]
    have hcomp1 : (Prod.fst ∘ fun k => (k, (ts.map f).count k)) =
        fun k : ℤ => k := rfl
    rw [hcomp1]
    have hsorted := Finset.sort_sorted_lt (ts.map f).toFinset
    simpa using hsorted

theorem cummulative_edits_totals_witness :
    ((cummulative_edits (fun t => t / 10) [3, 25, 7, 14]).map fun b => b.2.1).sum =
      ([(3 : ℤ), 25, 7, 14]).length ∧
    (∃ b, (cummulative_edits (fun t => t / 10) [3, 25, 7, 14]).getLast? = some b ∧
      b.2.2 = ([(3 : ℤ), 25, 7, 14]).length) ∧
    ((cummulative_edits (fun t => t / 10) [3, 25, 7, 14]).map fun b => b.1).Sorted
      (· < ·) :=
  cummulative_edits_totals _ _ (by simp)

/-- Claim C3: `compress` yields at most one row per `(userid, date)` pair;
every output row is one of the input events, and it carries the latest
timestamp among that contributor's events of that calendar day. -/
theorem compress_one_row_per_user_day (df : List Event) :
    ((compress df).map fun r => (r.userid, r.date)).Nodup ∧
    ∀ r ∈ compress df,
      (∃ e ∈ df, e.userid = r.userid ∧ e.timestamp = r.timestamp ∧
        e.text_length = r.text_length ∧ dayOf e.timestamp = r.date) ∧
      ∀ e ∈ df, e.userid = r.userid → dayOf e.timestamp = r.date →
        e.timestamp ≤ r.timestamp := by
  haveI := r1_total
  haveI := r1_trans
  have hsorted : List.Sorted r1 (List.insertionSort r1 (addDate df)) :=
    List.sorted_insertionSort r1 (addDate df)
  have p1 := List.perm_insertionSort r1 (addDate df)
  have p2 := List.perm_insertionSort rT
    (collapseLast (List.insertionSort r1 (addDate df)))
  constructor
  · show ((addSizes (List.insertionSort rT (collapseLast
        (List.insertionSort r1 (addDate df))))).map fun r => (r.userid, r.date)).Nodup
    rw [addSizes_keys]
    have hnd := collapseLast_keys_nodup _ hsorted
    exact ((p2.map fun r : Row => (r.userid, r.date)).nodup_iff).mpr hnd
  · intro r hr
    obtain ⟨p, hp, hru, hrt, hrl, hrd⟩ := addSizes_mem _ r hr
    have hpcl : p ∈ collapseLast (List.insertionSort r1 (addDate df)) :=
      p2.mem_iff.mp hp
    have hps1 : p ∈ List.insertionSort r1 (addDate df) :=
      collapseLast_subset _ p hpcl
    have hpl0 : p ∈ addDate df := p1.mem_iff.mp hps1
    constructor
    · rcases List.mem_map.mp hpl0 with ⟨e, he, hpe⟩
      refine ⟨e, he, ?_, ?_, ?_, ?_⟩
      · exact (congrArg Row.userid hpe).trans hru.symm
      · exact (congrArg Row.timestamp hpe).trans hrt.symm
      · exact (congrArg Row.text_length hpe).trans hrl.symm
      · exact (congrArg Row.date hpe).trans hrd.symm
    · intro e he hu hd
      have hpel0 : (⟨e.userid, e.timestamp, e.text_length, dayOf e.timestamp⟩ : Row) ∈
          addDate df := List.mem_map_of_mem _ he
      have hpes1 : (⟨e.userid, e.timestamp, e.text_length, dayOf e.timestamp⟩ : Row) ∈
          List.insertionSort r1 (addDate df) := p1.mem_iff.mpr hpel0
      have hle := collapseLast_max _ hsorted p hpcl
        ⟨e.userid, e.timestamp, e.text_length, dayOf e.timestamp⟩ hpes1
        (hu.trans hru) (hd.trans hrd)
      rw [hrt]
      exact hle

theorem compress_one_row_per_user_day_witness :
    (∃ e ∈ [(⟨"A", 864010, 100⟩ : Event)], e.userid = "A" ∧ e.timestamp = 864010 ∧
      e.text_length = 100 ∧ dayOf e.timestamp = 10) ∧
    ∀ e ∈ [(⟨"A", 864010, 100⟩ : Event)], e.userid = "A" → dayOf e.timestamp = 10 →
      e.timestamp ≤ 864010 :=
  (compress_one_row_per_user_day [⟨"A", 864010, 100⟩]).2
    ⟨"A", 864010, 100, 10, 72⟩ (by decide)

/-- Claim C4: on non-empty input the first compressed row (in the global
chronological order the pipeline produces) has `edit_size = 72`, and every
later row's `edit_size` is its `text_length` minus the `text_length` of the
immediately preceding row. -/
theorem compress_edit_size_diff (df : List Event) (h : df ≠ []) :
    ∃ c rest, compress df = c :: rest ∧ c.edit_size = 72 ∧
      List.Chain' (fun a b : CRow => b.edit_size = b.text_length - a.text_length)
        (compress df) := by
  have h0 : addDate df ≠ [] := by
    cases df with
    | nil => exact absurd rfl h
    | cons e es => simp [addDate]
  have h1 : List.insertionSort r1 (addDate df) ≠ [] := by
    intro hc
    have hlen := (List.perm_insertionSort r1 (addDate df)).length_eq
    rw [hc] at hlen
    exact h0 (List.length_eq_zero.mp hlen.symm)
  have h2 : collapseLast (List.insertionSort r1 (addDate df)) ≠ [] :=
    collapseLast_ne_nil _ h1
  have h3 : List.insertionSort rT
      (collapseLast (List.insertionSort r1 (addDate df))) ≠ [] := by
    intro hc
    have hlen := (List.perm_insertionSort rT
      (collapseLast (List.insertionSort r1 (addDate df)))).length_eq
    rw [hc] at hlen
    exact h2 (List.length_eq_zero.mp hlen.symm)
  obtain ⟨x, rest2, hx⟩ := List.exists_cons_of_ne_nil h3
  have hc : compress df =
      (⟨x.userid, x.timestamp, x.text_length, x.date, 72⟩ : CRow) ::
        sizesFrom x.text_length rest2 := by
    show addSizes (List.insertionSort rT
      (collapseLast (List.insertionSort r1 (addDate df)))) = _
    rw [hx]
    rfl
  refine ⟨_, _, hc, rfl, ?_⟩
  rw [hc]
  exact chain_sizesFrom rest2 x.text_length _ rfl

theorem compress_edit_size_diff_witness :
    ∃ c rest,
      compress [⟨"A", 864010, 100⟩, ⟨"A", 864020, 150⟩, ⟨"A", 864030, 200⟩,
        ⟨"B", 950405, 210⟩] = c :: rest ∧ c.edit_size = 72 ∧
      List.Chain' (fun a b : CRow => b.edit_size = b.text_length - a.text_length)
        (compress [⟨"A", 864010, 100⟩, ⟨"A", 864020, 150⟩, ⟨"A", 864030, 200⟩,
          ⟨"B", 950405, 210⟩]) :=
  compress_edit_size_diff _ (by simp)

end TwoDirections
